import Mathlib

/-!
A verification development for the rbf record-based-file library.

The Rust data model (fields, records, layouts, record mappers, filters) is
embedded shallowly. Rust strings are modelled as `List Char`, one element
per Unicode codepoint; byte-based slicing of `&str` is modelled by
`byteSlice`, which accounts for the UTF-8 width of each codepoint and
returns `none` exactly where Rust would panic (out of bounds or not a char
boundary). Rust panics in constructors are modelled by `Except`/`Option`
results. External behaviour (regex matching, typed comparison of parsed
values) is modelled by boolean-valued functions carried in the structures,
so every theorem quantifying over them holds for the real implementations.
-/

namespace Rbf

/-- Number of bytes of the UTF-8 encoding of one codepoint. -/
def charSize (c : Char) : Nat :=
  if c.toNat < 0x80 then 1
  else if c.toNat < 0x800 then 2
  else if c.toNat < 0x10000 then 3
  else 4

/-- Byte length of the UTF-8 encoding of a string (Rust `str::len`). -/
def utf8Len (s : List Char) : Nat := (s.map charSize).sum

/-- A codepoint encoded by a single UTF-8 byte. -/
def isAsciiChar (c : Char) : Bool := c.toNat < 0x80

/-- Keep the first `n` bytes of a string; `none` when `n` overruns the
string or does not land on a codepoint boundary (a Rust slicing panic). -/
def takeBytes : List Char → Nat → Option (List Char)
  | _, 0 => some []
  | [], _ + 1 => none
  | c :: cs, n + 1 =>
    if n + 1 < charSize c then none
    else (takeBytes cs (n + 1 - charSize c)).map (fun t => c :: t)

/-- Drop the first `n` bytes of a string; `none` when `n` overruns the
string or does not land on a codepoint boundary. -/
def dropBytes : List Char → Nat → Option (List Char)
  | s, 0 => some s
  | [], _ + 1 => none
  | c :: cs, n + 1 =>
    if n + 1 < charSize c then none
    else dropBytes cs (n + 1 - charSize c)

/-- Rust `&s[a..b]`: the byte range `[a, b)` of the UTF-8 encoding,
`none` on any index error (Rust panics there). -/
def byteSlice (s : List Char) (a b : Nat) : Option (List Char) :=
  if a ≤ b then (dropBytes s a).bind (fun t => takeBytes t (b - a)) else none

/-- Rust `str::trim`: remove leading and trailing whitespace. -/
def trimChars (s : List Char) : List Char :=
  ((s.dropWhile Char.isWhitespace).reverse.dropWhile Char.isWhitespace).reverse

/-- How a `Field` was defined in the schema (src/field.rs `FieldCreationType`). -/
inductive FieldCreationType where
  | ByLength
  | ByOffset
deriving DecidableEq

/-- src/types/fieldtype.rs `FieldType`. The base-type comparators (which
parse the strings and compare typed values) and the validation regex are
external code; they are modelled as boolean-valued functions. -/
structure FieldType where
  id : String
  type_as_string : String
  baseEq : List Char → List Char → Bool
  baseLt : List Char → List Char → Bool
  baseGt : List Char → List Char → Bool
  patternMatch : List Char → Bool

/-- src/field.rs `Field`. -/
structure Field where
  name : String
  description : String
  length : Nat
  ftype : FieldType
  raw_value : List Char
  str_value : List Char
  offset_from_origin : Nat
  index : Nat
  lower_offset : Nat
  upper_offset : Nat
  multiplicity : Nat
  cell_size : Nat
  creation_type : FieldCreationType
  id : String

/-- The distinct panic sites of the `Field` constructors. `underflow` is
the debug-build panic of the unsigned subtraction `lower_offset - 1`
when `lower_offset = 0` in `Field::from_offset`. -/
inductive FieldError where
  | emptyName
  | zeroLength
  | lowerGtUpper
  | underflow
deriving DecidableEq

/-- src/field.rs `Field::from_length`. Panics (here: errors) on an empty
name or a zero length. -/
def Field.from_length (name description : String) (ftype : FieldType)
    (length : Nat) : Except FieldError Field :=
  if name = "" then .error .emptyName
  else if length = 0 then .error .zeroLength
  else .ok {
    name := name, description := description, length := length,
    ftype := ftype, raw_value := [], str_value := [],
    offset_from_origin := 0, index := 0, lower_offset := 0,
    upper_offset := 0, multiplicity := 0,
    cell_size := max length name.length,
    creation_type := .ByLength, id := "" }

/-- src/field.rs `Field::from_offset`, with 1-based inclusive bounds.
The guard panics on an empty name or `lower_offset > upper_offset`; it
does not cover `lower_offset = 0`, where the 0-based conversion
`lower_offset - 1` underflows the unsigned integer (a debug-build panic,
modelled as `FieldError.underflow`). -/
def Field.from_offset (name description : String) (ftype : FieldType)
    (lower_offset upper_offset : Nat) : Except FieldError Field :=
  if name = "" then .error .emptyName
  else if lower_offset > upper_offset then .error .lowerGtUpper
  else if lower_offset = 0 then .error .underflow
  else .ok {
    name := name, description := description,
    length := upper_offset - lower_offset + 1,
    ftype := ftype, raw_value := [], str_value := [],
    offset_from_origin := 0, index := 0,
    lower_offset := lower_offset - 1, upper_offset := upper_offset - 1,
    multiplicity := 0,
    cell_size := max (upper_offset - lower_offset + 1) name.length,
    creation_type := .ByOffset, id := "" }

/-- src/field.rs `Field::set_value`: stores the raw value and its
whitespace-trimmed form. -/
def Field.set_value (f : Field) (val : List Char) : Field :=
  { f with str_value := trimChars val, raw_value := val }

/-- src/field.rs `Field::value`: the trimmed value. -/
def Field.value (f : Field) : List Char := f.str_value

/-- src/filter/fieldfilter.rs `FieldFilterOp`. -/
inductive FieldFilterOp where
  | OpEqual
  | OpNotEqual
  | OpSimilar
  | OpNotSimilar
  | OpLessThan
  | OpGreaterThan
deriving DecidableEq

/-- The `Regex` stored in a field filter: its source text (`as_str`) and
its matching behaviour, the latter modelled as a boolean function. -/
structure RegexValue where
  asStr : List Char
  isMatch : List Char → Bool

/-- src/filter/fieldfilter.rs `FieldFilter`. -/
structure FieldFilter where
  fname : String
  op_string : String
  op : FieldFilterOp
  freg_or_value : RegexValue

/-- src/filter/recordfilter.rs `RecordFilter`: a conjunction of field
filters. -/
structure RecordFilter where
  expr : List FieldFilter

/-- src/field.rs `Field::is_filter_matched`: dispatch on the operator,
comparing the field's trimmed value with the filter's value or regex. -/
def Field.is_filter_matched (f : Field) (filter : FieldFilter) : Bool :=
  match filter.op with
  | .OpEqual => f.ftype.baseEq f.value filter.freg_or_value.asStr
  | .OpNotEqual => !(f.ftype.baseEq f.value filter.freg_or_value.asStr)
  | .OpSimilar => filter.freg_or_value.isMatch f.value
  | .OpNotSimilar => !(filter.freg_or_value.isMatch f.value)
  | .OpLessThan => f.ftype.baseLt f.value filter.freg_or_value.asStr
  | .OpGreaterThan => f.ftype.baseGt f.value filter.freg_or_value.asStr

/-- src/record.rs `Record`. The phantom slicing-mode parameter is not
carried by the structure; the two `set_value` implementations are the
two separate functions `Record.set_value_ascii` and
`Record.set_value_utf8`. -/
structure Record where
  name : String
  description : String
  declared_length : Nat
  flist : List Field
  calculated_length : Nat

/-- src/record.rs `Record::new`: panics (here `none`) on an empty name. -/
def Record.new (name description : String) (length : Nat) : Option Record :=
  if name = "" then none
  else some {
    name := name, description := description, declared_length := length,
    flist := [], calculated_length := 0 }

/-- src/record.rs `Record::push`. Sets the appended field's index and
origin, computes its bounds (contiguously for a by-length field; for a
by-offset field the record's calculated length becomes that field's
upper bound + 1), assigns the multiplicity from the last field of the
same name (Rust fetches it with `get` + `pop`, i.e. the last element of
the name-filtered list), builds the composite id, and appends. -/
def Record.push (r : Record) (field : Field) : Record :=
  let len := r.flist.length
  let f1 : Field := { field with
    index := len, offset_from_origin := r.calculated_length }
  let step : Field × Nat :=
    match f1.creation_type with
    | .ByLength =>
      ({ f1 with lower_offset := f1.offset_from_origin,
                 upper_offset := f1.offset_from_origin + f1.length - 1 },
       r.calculated_length + f1.length)
    | .ByOffset => (f1, f1.upper_offset + 1)
  let f2 := step.1
  let mult : Nat :=
    match (r.flist.filter (fun f => f.name == f2.name)).getLast? with
    | some v => v.multiplicity + 1
    | none => f2.multiplicity
  let f3 := { f2 with multiplicity := mult, id := f2.name ++ toString mult }
  { r with flist := r.flist ++ [f3], calculated_length := step.2 }

/-- Fold `Record::push` over a list of fields, in order. -/
def Record.pushAll (r : Record) (fs : List Field) : Record :=
  fs.foldl Record.push r

/-- src/record.rs `Record::contains_field`. -/
def Record.contains_field (r : Record) (fname : String) : Bool :=
  r.flist.any (fun f => f.name == fname)

/-- src/record.rs `Record::count`. -/
def Record.count (r : Record) : Nat := r.flist.length

/-- src/record.rs `Record::filter`: the fields matching the predicate,
`none` when no field matches. -/
def Record.filterFields (r : Record) (pred : Field → Bool) :
    Option (List Field) :=
  let result := r.flist.filter pred
  if result.isEmpty then none else some result

/-- src/record.rs `Record::get`: all fields of the given name, in order. -/
def Record.get (r : Record) (fname : String) : Option (List Field) :=
  r.filterFields (fun f => f.name == fname)

/-- src/record.rs `Record::retain`: keep only fields matching the
predicate. -/
def Record.retain (r : Record) (pred : Field → Bool) : Record :=
  { r with flist := r.flist.filter pred }

/-- src/record.rs `Record::remove`: drop fields matching the predicate. -/
def Record.remove (r : Record) (pred : Field → Bool) : Record :=
  { r with flist := r.flist.filter (fun f => !pred f) }

/-- src/record.rs `Record::value`: the concatenation of all raw field
values. -/
def Record.value (r : Record) : List Char :=
  (r.flist.map (fun f => f.raw_value)).flatten

/-- src/record.rs `Record::adjust_value`: a line shorter (in bytes) than
the calculated length is right-padded with blanks. Rust formats with
`"{:length$} "`: the pad width counts codepoints and a single extra
blank is appended after it. -/
def Record.adjust_value (r : Record) (value : List Char) : List Char :=
  if utf8Len value < r.calculated_length then
    value ++ List.replicate (r.calculated_length - value.length) ' ' ++ [' ']
  else value

/-- src/record.rs `ReadMode for Record<AsciiMode>::set_value`: every
field receives the byte range `[lower_offset, upper_offset + 1)` of the
adjusted line; `none` models the Rust slicing panic. -/
def Record.set_value_ascii (r : Record) (value : List Char) :
    Option Record :=
  let s := r.adjust_value value
  (r.flist.mapM (fun f =>
    (byteSlice s f.lower_offset (f.upper_offset + 1)).map f.set_value)).map
    (fun fl => { r with flist := fl })

/-- src/record.rs `ReadMode for Record<UTF8Mode>::set_value`: every
field receives `chars().skip(lower_offset).take(length)` of the
adjusted line. -/
def Record.set_value_utf8 (r : Record) (value : List Char) : Record :=
  let s := r.adjust_value value
  { r with flist := r.flist.map (fun f =>
      f.set_value ((s.drop f.lower_offset).take f.length)) }

/-- src/record.rs `Record::is_filter_matched`: conjunction over the
record filter's field filters; a filter whose field name is absent is
skipped (`continue`), otherwise any field of that name may match. -/
def Record.is_filter_matched (r : Record) (filter : RecordFilter) : Bool :=
  filter.expr.foldl
    (fun result f =>
      match r.get f.fname with
      | none => result
      | some fields =>
        result && fields.any (fun x => x.is_filter_matched f))
    true

/-- src/layout.rs `Layout`. The record map is modelled as an association
list; `Layout::is_valid` does not depend on the iteration order of its
hash map. -/
structure Layout where
  xml_file : String
  rec_length : Nat
  version : String
  description : String
  schema : String
  rec_map : List (String × Record)

/-- src/layout.rs `Layout::is_valid`: with a nonzero declared uniform
length every record's calculated length must equal it; otherwise every
record's declared length must equal its calculated length. -/
def Layout.is_valid (l : Layout) : Bool × String × Nat × Nat :=
  if l.rec_length ≠ 0 then
    match l.rec_map.find?
        (fun p => l.rec_length != p.2.calculated_length) with
    | some p => (false, "", l.rec_length, p.2.calculated_length)
    | none => (true, "", 0, 0)
  else
    match l.rec_map.find?
        (fun p => p.2.declared_length != p.2.calculated_length) with
    | some p => (false, p.2.name, p.2.declared_length, p.2.calculated_length)
    | none => (true, "", 0, 0)

/-- src/layout.rs `Layout::new`, handling of a `<field>` element without
a `length` attribute: the `start` attribute is parsed if present and
defaults to 0 otherwise. -/
def fieldStartAttr (attr : Option Nat) : Nat :=
  match attr with
  | some n => n
  | none => 0

/-- src/mapper.rs `RecordMapper`: the two implemented strategies. The
boxed closure is represented by this inductive plus `RecordMapper.apply`. -/
inductive RecordMapper where
  | constant (dmn : List Char)
  | range (lo hi : Nat)
deriving DecidableEq

/-- Application of the mapper closure to an input line. The range
strategy slices bytes (`x[range.0..range.1]`) whatever the layout's
slicing mode; `none` models the Rust slicing panic. -/
def RecordMapper.apply : RecordMapper → List Char → Option (List Char)
  | .constant dmn, _ => some dmn
  | .range lo hi, x => byteSlice x lo hi

/-- Decimal digits to a number, most significant first. -/
def digitsToNat (ds : List Char) : Nat :=
  ds.foldl (fun acc c => acc * 10 + (c.toNat - 48)) 0

/-- The `(\d+)\.\.(\d+)` capture of src/mapper.rs on a well-formed
domain string `a..b`; `none` when the domain has no such shape (the
Rust `unwrap` on the captures panics). -/
def parseRange (domain : List Char) : Option (Nat × Nat) :=
  let lo := domain.takeWhile Char.isDigit
  let rest := domain.dropWhile Char.isDigit
  let hi := (rest.drop 2).takeWhile Char.isDigit
  if lo.isEmpty ∨ hi.isEmpty ∨ rest.take 2 ≠ ['.', '.'] ∨
      (rest.drop 2).dropWhile Char.isDigit ≠ [] then
    none
  else
    some (digitsToNat lo, digitsToNat hi)

/-- src/mapper.rs `RecordMapper::new`: `constant` returns the domain for
every line; `range` parses `a..b` and slices that byte range; `fancy` is
unimplemented (a panic) and every other strategy name panics. All fatal
outcomes are `none`. -/
def RecordMapper.new (mtype : String) (domain : List Char) :
    Option RecordMapper :=
  match mtype with
  | "constant" => some (.constant domain)
  | "range" =>
    match parseRange domain with
    | some (lo, hi) => some (.range lo hi)
    | none => none
  | "fancy" => none
  | _ => none

/-- The `(lower_offset, length)` pairs of a run of contiguous fields with
the given lengths, starting at `start`. -/
def tiles (start : Nat) : List Nat → List (Nat × Nat)
  | [] => []
  | l :: ls => (start, l) :: tiles (start + l) ls

/-- The multiplicity `Record::push` assigns: one more than the
multiplicity of the last field of the same name, if any. -/
def pushMult (r : Record) (f : Field) : Nat :=
  match (r.flist.filter (fun g => g.name == f.name)).getLast? with
  | some v => v.multiplicity + 1
  | none => f.multiplicity

/-- The calculated length the claim about by-offset pushes expects: the
maximum exclusive upper bound across all fields of the record. -/
def maxUpperBound (r : Record) : Nat :=
  (r.flist.map (fun f => f.upper_offset + 1)).foldr Nat.max 0

/-- The codepoint-range semantics the spec ascribes to the range
dispatcher on UTF-8 layouts (written from the spec's words, for
comparison; the source always slices bytes). -/
def specRangeCodepoints (line : List Char) (a b : Nat) : List Char :=
  (line.drop a).take (b - a)

/-! ### Concrete test data -/

/-- A concrete field type; the external comparators are irrelevant to
the structural claims exercised on it. -/
def ftInt : FieldType :=
  { id := "I", type_as_string := "int",
    baseEq := fun _ _ => false, baseLt := fun _ _ => false,
    baseGt := fun _ _ => false, patternMatch := fun _ => true }

/-- The field `Field::from_length name "" ftInt len` produces (for a
non-empty name and a positive length); see `from_length_fldLen`. -/
def fldLen (name : String) (len : Nat) : Field :=
  { name := name, description := "", length := len, ftype := ftInt,
    raw_value := [], str_value := [], offset_from_origin := 0, index := 0,
    lower_offset := 0, upper_offset := 0, multiplicity := 0,
    cell_size := max len name.length, creation_type := .ByLength, id := "" }

/-- The field `Field::from_offset name "" ftInt a b` produces (for a
non-empty name and `1 ≤ a ≤ b`); see `from_offset_fldOff`. -/
def fldOff (name : String) (a b : Nat) : Field :=
  { name := name, description := "", length := b - a + 1, ftype := ftInt,
    raw_value := [], str_value := [], offset_from_origin := 0, index := 0,
    lower_offset := a - 1, upper_offset := b - 1, multiplicity := 0,
    cell_size := max (b - a + 1) name.length, creation_type := .ByOffset,
    id := "" }

/-- The record `Record::new name "" dl` produces (for a non-empty name);
see `new_recBase`. -/
def recBase (name : String) (dl : Nat) : Record :=
  { name := name, description := "", declared_length := dl, flist := [],
    calculated_length := 0 }

/-- A one-field UTF-8-mode record of calculated length 4. -/
def recOneF4 : Record := Record.pushAll (recBase "R" 0) [fldLen "F" 4]

/-- Two by-offset fields pushed with decreasing upper bounds. -/
def recOffDec : Record :=
  Record.pushAll (recBase "R" 0) [fldOff "F1" 1 10, fldOff "F2" 1 5]

/-- Eleven fields named `A` followed by one named `A1`. -/
def recManyA : Record :=
  Record.pushAll (recBase "R" 0)
    (List.replicate 11 (fldLen "A" 1) ++ [fldLen "A1" 1])

/-- The four-field by-length record of the library's own test setup
(`set_up_by_length`). -/
def recSetup : Record :=
  Record.pushAll (recBase "RECORD1" 20)
    [fldLen "FIELD1" 10, fldLen "FIELD2" 10,
     fldLen "FIELD3" 20, fldLen "FIELD2" 10]

/-- A layout with declared uniform length 0 holding one record whose
declared length is 0 but whose calculated length is 5. -/
def layZeroDecl : Layout :=
  { xml_file := "test.xml", rec_length := 0, version := "", description := "",
    schema := "",
    rec_map := [("R", Record.pushAll (recBase "R" 0) [fldLen "F" 5])] }

/-! ### Basic facts about UTF-8 byte counting and slicing -/

theorem charSize_pos (c : Char) : 1 ≤ charSize c := by
  unfold charSize
  repeat' split
  all_goals omega

theorem charSize_of_ascii {c : Char} (h : isAsciiChar c = true) :
    charSize c = 1 := by
  simp only [isAsciiChar, decide_eq_true_eq] at h
  simp [charSize, h]

theorem length_le_utf8Len (s : List Char) : s.length ≤ utf8Len s := by
  induction s with
  | nil => simp [utf8Len]
  | cons c cs ih =>
    have := charSize_pos c
    simp only [utf8Len, List.map_cons, List.sum_cons, List.length_cons] at *
    omega

theorem utf8Len_of_ascii {s : List Char} (h : ∀ c ∈ s, isAsciiChar c = true) :
    utf8Len s = s.length := by
  induction s with
  | nil => simp [utf8Len]
  | cons c cs ih =>
    have hc := charSize_of_ascii (h c (by simp))
    have ih2 := ih (fun x hx => h x (by simp [hx]))
    simp only [utf8Len, List.map_cons, List.sum_cons, List.length_cons] at *
    omega

theorem takeBytes_of_ascii :
    ∀ (s : List Char) (n : Nat), (∀ c ∈ s, isAsciiChar c = true) →
      n ≤ s.length → takeBytes s n = some (s.take n)
  | _, 0, _, _ => by simp [takeBytes]
  | [], n + 1, _, h => by simp at h
  | c :: cs, n + 1, ha, h => by
    have hc := charSize_of_ascii (ha c (by simp))
    have ih := takeBytes_of_ascii cs n (fun x hx => ha x (by simp [hx]))
      (by simpa using h)
    simp [takeBytes, hc, ih]

theorem dropBytes_of_ascii :
    ∀ (s : List Char) (n : Nat), (∀ c ∈ s, isAsciiChar c = true) →
      n ≤ s.length → dropBytes s n = some (s.drop n)
  | _, 0, _, _ => by simp [dropBytes]
  | [], n + 1, _, h => by simp at h
  | c :: cs, n + 1, ha, h => by
    have hc := charSize_of_ascii (ha c (by simp))
    have ih := dropBytes_of_ascii cs n (fun x hx => ha x (by simp [hx]))
      (by simpa using h)
    simp [dropBytes, hc, ih]

theorem byteSlice_of_ascii {s : List Char} {a n : Nat}
    (ha : ∀ c ∈ s, isAsciiChar c = true) (h : a + n ≤ s.length) :
    byteSlice s a (a + n) = some ((s.drop a).take n) := by
  have hd := dropBytes_of_ascii s a ha (by omega)
  have ht := takeBytes_of_ascii (s.drop a) n
    (fun x hx => ha x (List.mem_of_mem_drop hx))
    (by simp [List.length_drop]; omega)
  simp [byteSlice, hd, ht]

theorem take_append_take_drop (s : List Char) :
    ∀ (a b : Nat), s.take a ++ (s.drop a).take b = s.take (a + b) := by
  induction s with
  | nil => intro a b; simp
  | cons x xs ih =>
    intro a b
    cases a with
    | zero => simp
    | succ a =>
      have : a + 1 + b = (a + b) + 1 := by omega
      simp [this, ih a b]

/-! ### Contiguous tiling produced by pushing by-length fields -/

theorem tiles_length (start : Nat) (lens : List Nat) :
    (tiles start lens).length = lens.length := by
  induction lens generalizing start with
  | nil => simp [tiles]
  | cons l ls ih => simp [tiles, ih]

theorem tiles_bound {start : Nat} {lens : List Nat} :
    ∀ p ∈ tiles start lens, p.1 + p.2 ≤ start + lens.sum := by
  induction lens generalizing start with
  | nil => simp [tiles]
  | cons l ls ih =>
    intro p hp
    simp only [tiles, List.mem_cons] at hp
    rcases hp with h | h
    · subst h
      simp only [List.sum_cons]
      simp
    · have := ih p h
      simp only [List.sum_cons]
      omega

theorem tiles_get {lens : List Nat} :
    ∀ (start : Nat) (i : Nat) (h : i < (tiles start lens).length),
      (tiles start lens).get ⟨i, h⟩
        = (start + ((lens.take i).sum),
           (lens.get ⟨i, by rw [tiles_length] at h; exact h⟩)) := by
  induction lens with
  | nil => intro start i h; simp [tiles] at h
  | cons l ls ih =>
    intro start i h
    cases i with
    | zero => simp [tiles]
    | succ j =>
      have hj : j < (tiles (start + l) ls).length := by
        simpa [tiles] using h
      have := ih (start + l) j hj
      simp only [tiles, List.get_cons_succ, this, List.take_succ_cons,
        List.sum_cons]
      simp [Nat.add_assoc]

/-! ### Characterization of Record.push -/

theorem push_byLength_eq (r : Record) (f : Field)
    (h1 : f.creation_type = .ByLength) :
    r.push f = { r with
      flist := r.flist ++ [{ f with
        index := r.flist.length,
        offset_from_origin := r.calculated_length,
        lower_offset := r.calculated_length,
        upper_offset := r.calculated_length + f.length - 1,
        multiplicity := pushMult r f,
        id := f.name ++ toString (pushMult r f) }],
      calculated_length := r.calculated_length + f.length } := by
  unfold Record.push pushMult
  simp only [h1]

theorem push_byOffset_eq (r : Record) (f : Field)
    (h1 : f.creation_type = .ByOffset) :
    r.push f = { r with
      flist := r.flist ++ [{ f with
        index := r.flist.length,
        offset_from_origin := r.calculated_length,
        multiplicity := pushMult r f,
        id := f.name ++ toString (pushMult r f) }],
      calculated_length := f.upper_offset + 1 } := by
  unfold Record.push pushMult
  simp only [h1]

/-- Pushing a run of by-length fields lays them out contiguously: the
calculated length grows by the sum of the lengths, the
`(lower_offset, length)` projections extend by the corresponding tiles,
and every field of the result satisfies the by-length bound relation or
was already present. -/
theorem pushAll_byLength :
    ∀ (fs : List Field) (r : Record),
      (∀ f ∈ fs, f.creation_type = .ByLength ∧ 1 ≤ f.length) →
      (Record.pushAll r fs).calculated_length
          = r.calculated_length + (fs.map (fun f => f.length)).sum
        ∧ (Record.pushAll r fs).flist.map (fun g => (g.lower_offset, g.length))
          = r.flist.map (fun g => (g.lower_offset, g.length))
            ++ tiles r.calculated_length (fs.map (fun f => f.length))
        ∧ ∀ g ∈ (Record.pushAll r fs).flist,
            g ∈ r.flist
              ∨ (g.upper_offset = g.lower_offset + g.length - 1 ∧ 1 ≤ g.length)
  | [], r, _ => by
    refine ⟨by simp [Record.pushAll], by simp [Record.pushAll, tiles], ?_⟩
    intro g hg
    exact Or.inl (by simpa [Record.pushAll] using hg)
  | f :: fs, r, h => by
    have hf := h f (by simp)
    have hfs : ∀ x ∈ fs, x.creation_type = .ByLength ∧ 1 ≤ x.length :=
      fun x hx => h x (by simp [hx])
    have hstep : Record.pushAll r (f :: fs)
        = Record.pushAll (r.push f) fs := by
      simp [Record.pushAll]
    have hpush := push_byLength_eq r f hf.1
    have ih := pushAll_byLength fs (r.push f) hfs
    rcases ih with ⟨ih1, ih2, ih3⟩
    refine ⟨?_, ?_, ?_⟩
    · rw [hstep, ih1, hpush]
      simp [Nat.add_assoc]
    · rw [hstep, ih2, hpush]
      simp only [tiles, List.map_cons, List.map_append, List.map_cons,
        List.map_nil, List.sum_cons, List.append_assoc, List.singleton_append]
    · intro g hg
      rw [hstep] at hg
      rcases ih3 g hg with hmem | hprop
      · rw [hpush] at hmem
        simp only [List.mem_append, List.mem_singleton] at hmem
        rcases hmem with hm | hm
        · exact Or.inl hm
        · subst hm
          exact Or.inr ⟨by simp, by simpa using hf.2⟩
      · exact Or.inr hprop

/-- Slices of a line at a contiguous run of positions concatenate to the
corresponding segment of the line. -/
theorem tiles_slices_flatten (s : List Char) :
    ∀ (lens : List Nat) (start : Nat),
      ((tiles start lens).map (fun p => (s.drop p.1).take p.2)).flatten
        = (s.drop start).take lens.sum := by
  intro lens
  induction lens with
  | nil => intro start; simp [tiles]
  | cons l ls ih =>
    intro start
    simp only [tiles, List.map_cons, List.flatten_cons, ih (start + l),
      List.sum_cons]
    have hdd : s.drop (start + l) = (s.drop start).drop l := by
      rw [List.drop_drop]
    rw [hdd, take_append_take_drop]

@[simp] theorem Field.raw_value_set_value (f : Field) (v : List Char) :
    (f.set_value v).raw_value = v := rfl

@[simp] theorem Field.str_value_set_value (f : Field) (v : List Char) :
    (f.set_value v).str_value = trimChars v := rfl

theorem mapM_option_some {α β : Type} (G : α → Option β) (g : α → β) :
    ∀ (l : List α), (∀ x ∈ l, G x = some (g x)) → l.mapM G = some (l.map g)
  | [], _ => rfl
  | x :: xs, h => by
    have hx := h x (by simp)
    have ih := mapM_option_some G g xs (fun y hy => h y (by simp [hy]))
    rw [List.mapM_cons, hx, ih]
    rfl

/-- The record value after a UTF-8 `set_value`, when the fields tile the
record contiguously: the first `lens.sum` codepoints of the adjusted
line. -/
theorem set_value_utf8_value (r : Record) (L : List Char) (lens : List Nat)
    (hmap : r.flist.map (fun g => (g.lower_offset, g.length)) = tiles 0 lens) :
    (r.set_value_utf8 L).value = (r.adjust_value L).take lens.sum := by
  unfold Record.set_value_utf8 Record.value
  simp only [List.map_map, Function.comp_def, Field.raw_value_set_value]
  have hsplit : r.flist.map (fun f : Field =>
        (((r.adjust_value L).drop f.lower_offset).take f.length))
      = (tiles 0 lens).map
          (fun p => (((r.adjust_value L).drop p.1).take p.2)) := by
    rw [← hmap, List.map_map]
    rfl
  rw [hsplit, tiles_slices_flatten, List.drop_zero]

/-- The ASCII `set_value` succeeds and produces the same field values as
the UTF-8 one whenever the adjusted line is pure ASCII, the fields tile
the record contiguously, and the line covers the tiling. -/
theorem set_value_ascii_eq (r : Record) (L : List Char) (lens : List Nat)
    (hmap : r.flist.map (fun g => (g.lower_offset, g.length)) = tiles 0 lens)
    (hup : ∀ f ∈ r.flist,
      f.upper_offset = f.lower_offset + f.length - 1 ∧ 1 ≤ f.length)
    (hascii : ∀ c ∈ r.adjust_value L, isAsciiChar c = true)
    (hlen : lens.sum ≤ (r.adjust_value L).length) :
    r.set_value_ascii L = some (r.set_value_utf8 L) := by
  simp only [Record.set_value_ascii, Record.set_value_utf8]
  have hone : ∀ f ∈ r.flist,
      byteSlice (r.adjust_value L) f.lower_offset (f.upper_offset + 1)
        = some (((r.adjust_value L).drop f.lower_offset).take f.length) := by
    intro f hf
    have h1 := hup f hf
    have hmem : (f.lower_offset, f.length) ∈ tiles 0 lens := by
      rw [← hmap]
      exact List.mem_map_of_mem (fun g => (g.lower_offset, g.length)) hf
    have hbd := tiles_bound _ hmem
    simp only [Nat.zero_add] at hbd
    have hidx : f.upper_offset + 1 = f.lower_offset + f.length := by omega
    rw [hidx]
    exact byteSlice_of_ascii hascii (by omega)
  have := mapM_option_some
    (fun f => (byteSlice (r.adjust_value L) f.lower_offset
      (f.upper_offset + 1)).map f.set_value)
    (fun f => f.set_value
      (((r.adjust_value L).drop f.lower_offset).take f.length))
    r.flist
    (fun f hf => by simp [hone f hf])
  rw [this]
  rfl

/-- `adjust_value` on a line at least as long (in bytes) as the record:
identity. -/
theorem adjust_value_of_ge (r : Record) (L : List Char)
    (h : r.calculated_length ≤ utf8Len L) : r.adjust_value L = L := by
  unfold Record.adjust_value
  rw [if_neg (by omega)]

/-- `adjust_value` on a line shorter (in bytes) than the record: pad to
the calculated length in codepoints, plus one extra blank. -/
theorem adjust_value_of_lt (r : Record) (L : List Char)
    (h : utf8Len L < r.calculated_length) :
    r.adjust_value L
      = L ++ List.replicate (r.calculated_length - L.length) ' ' ++ [' '] := by
  unfold Record.adjust_value
  rw [if_pos h]

/-! ### Record lookup and filter-matching -/

theorem filterFields_eq (r : Record) (pred : Field → Bool) :
    r.filterFields pred
      = if (r.flist.filter pred).isEmpty then none
        else some (r.flist.filter pred) := rfl

theorem get_eq_none_iff (r : Record) (n : String) :
    r.get n = none ↔ r.contains_field n = false := by
  unfold Record.get
  rw [filterFields_eq]
  unfold Record.contains_field
  constructor
  · intro h
    split at h
    · next hemp =>
      rw [List.isEmpty_iff, List.filter_eq_nil_iff] at hemp
      rw [List.any_eq_false]
      exact hemp
    · exact absurd h (by simp)
  · intro h
    rw [List.any_eq_false] at h
    have hnil : r.flist.filter (fun f => f.name == n) = [] := by
      rw [List.filter_eq_nil_iff]
      exact h
    rw [if_pos (by rw [List.isEmpty_iff]; exact hnil)]

theorem get_eq_some (r : Record) (n : String) (fields : List Field)
    (h : r.get n = some fields) :
    fields = r.flist.filter (fun f => f.name == n) := by
  unfold Record.get at h
  rw [filterFields_eq] at h
  split at h
  · exact absurd h (by simp)
  · exact (Option.some.injEq _ _ ▸ h).symm

/-- The accumulator form of `Record::is_filter_matched`'s loop. -/
theorem foldl_filter_step (r : Record) :
    ∀ (l : List FieldFilter) (b : Bool),
      l.foldl (fun result f =>
        match r.get f.fname with
        | none => result
        | some fields =>
          result && fields.any (fun x => x.is_filter_matched f)) b
      = (b && l.all (fun f =>
          match r.get f.fname with
          | none => true
          | some fields => fields.any (fun x => x.is_filter_matched f)))
  | [], b => by simp
  | f :: l, b => by
    rw [List.foldl_cons, List.all_cons]
    cases hg : r.get f.fname with
    | none =>
      simp only [hg]
      rw [foldl_filter_step r l b]
      simp
    | some fields =>
      simp only [hg]
      rw [foldl_filter_step r l (b && fields.any (fun x => x.is_filter_matched f))]
      rw [Bool.and_assoc]

/-! ### Multiplicity bookkeeping of Record.push -/

theorem range_getLast? (k : Nat) (h : 0 < k) :
    (List.range k).getLast? = some (k - 1) := by
  cases k with
  | zero => omega
  | succ j => rw [List.range_succ, List.getLast?_concat]; rfl

theorem push_flist_shape (r : Record) (f : Field) :
    ∃ f3 : Field, (r.push f).flist = r.flist ++ [f3]
      ∧ f3.name = f.name ∧ f3.multiplicity = pushMult r f := by
  cases hc : f.creation_type with
  | ByLength =>
    rw [push_byLength_eq r f hc]
    exact ⟨_, rfl, rfl, rfl⟩
  | ByOffset =>
    rw [push_byOffset_eq r f hc]
    exact ⟨_, rfl, rfl, rfl⟩

theorem pushMult_eq (r : Record) (f : Field) (hf : f.multiplicity = 0)
    (hinv : ((r.flist.filter (fun g => g.name == f.name)).map
          (fun g => g.multiplicity))
        = List.range ((r.flist.filter (fun g => g.name == f.name)).length)) :
    pushMult r f = (r.flist.filter (fun g => g.name == f.name)).length := by
  unfold pushMult
  cases hL : (r.flist.filter (fun g => g.name == f.name)).getLast? with
  | none =>
    rw [List.getLast?_eq_none_iff] at hL
    simp [hL, hf]
  | some v =>
    have hne : r.flist.filter (fun g => g.name == f.name) ≠ [] := by
      intro hnil
      rw [hnil] at hL
      simp at hL
    have hk : 0 < (r.flist.filter (fun g => g.name == f.name)).length :=
      List.length_pos.mpr hne
    have hmap : ((r.flist.filter (fun g => g.name == f.name)).map
        (fun g => g.multiplicity)).getLast? = some v.multiplicity := by
      rw [List.getLast?_map, hL]
      rfl
    rw [hinv, range_getLast? _ hk] at hmap
    have : v.multiplicity
        = (r.flist.filter (fun g => g.name == f.name)).length - 1 := by
      exact (Option.some.injEq _ _ ▸ hmap.symm)
    simp only [this]
    omega

/-- One `push` of a fresh field (multiplicity 0) preserves the record's
multiplicity bookkeeping: per name, the multiplicities read 0..k-1 in
order, and the (name, multiplicity) pairs are pairwise distinct. -/
theorem push_mult_invariant (r : Record) (f : Field) (hf : f.multiplicity = 0)
    (hinv : ∀ n : String,
      ((r.flist.filter (fun g => g.name == n)).map (fun g => g.multiplicity))
        = List.range ((r.flist.filter (fun g => g.name == n)).length))
    (hnd : (r.flist.map (fun g => (g.name, g.multiplicity))).Nodup) :
    (∀ n : String,
      (((r.push f).flist.filter (fun g => g.name == n)).map
          (fun g => g.multiplicity))
        = List.range
            (((r.push f).flist.filter (fun g => g.name == n)).length))
    ∧ ((r.push f).flist.map (fun g => (g.name, g.multiplicity))).Nodup := by
  obtain ⟨f3, hsh, hname, hmult⟩ := push_flist_shape r f
  have hm := pushMult_eq r f hf (hinv f.name)
  constructor
  · intro n
    rw [hsh, List.filter_append]
    by_cases hn : f3.name == n
    · have hfn : f.name = n := by
        rw [hname] at hn
        exact eq_of_beq hn
      have hsingle : List.filter (fun g => g.name == n) [f3] = [f3] := by
        simp [List.filter, hn]
      rw [hsingle, List.map_append, List.length_append]
      subst hfn
      rw [hinv f.name]
      simp only [List.map_cons, List.map_nil, List.length_singleton]
      rw [hmult, hm]
      rw [← List.range_succ]
    · have hsingle : List.filter (fun g => g.name == n) [f3] = [] := by
        simp [List.filter, hn]
      rw [hsingle, List.append_nil]
      exact hinv n
  · rw [hsh, List.map_append]
    rw [List.nodup_append]
    refine ⟨hnd, by simp, ?_⟩
    intro p hp hq
    simp only [List.map_cons, List.map_nil, List.mem_singleton] at hq
    subst hq
    rcases List.mem_map.mp hp with ⟨g, hg, hpair⟩
    simp only [Prod.mk.injEq] at hpair
    obtain ⟨hgname, hgmult⟩ := hpair
    have hgfilter : g ∈ r.flist.filter (fun x => x.name == f.name) := by
      rw [List.mem_filter]
      refine ⟨hg, ?_⟩
      rw [hgname, hname]
      simp
    have hmem : g.multiplicity ∈ (r.flist.filter
        (fun x => x.name == f.name)).map (fun x => x.multiplicity) :=
      List.mem_map_of_mem _ hgfilter
    rw [hinv f.name, List.mem_range] at hmem
    rw [hgmult, hmult, hm] at hmem
    omega

/-- `push_mult_invariant` folded over a field list. -/
theorem pushAll_mult_invariant :
    ∀ (fs : List Field) (r : Record),
      (∀ f ∈ fs, f.multiplicity = 0) →
      (∀ n : String,
        ((r.flist.filter (fun g => g.name == n)).map
            (fun g => g.multiplicity))
          = List.range ((r.flist.filter (fun g => g.name == n)).length)) →
      (r.flist.map (fun g => (g.name, g.multiplicity))).Nodup →
      (∀ n : String,
        (((Record.pushAll r fs).flist.filter (fun g => g.name == n)).map
            (fun g => g.multiplicity))
          = List.range
              (((Record.pushAll r fs).flist.filter
                  (fun g => g.name == n)).length))
        ∧ ((Record.pushAll r fs).flist.map
            (fun g => (g.name, g.multiplicity))).Nodup
  | [], r, _, hinv, hnd => ⟨hinv, hnd⟩
  | f :: fs, r, hf, hinv, hnd => by
    have hstep : Record.pushAll r (f :: fs) = Record.pushAll (r.push f) fs := by
      simp [Record.pushAll]
    obtain ⟨hinv2, hnd2⟩ :=
      push_mult_invariant r f (hf f (by simp)) hinv hnd
    rw [hstep]
    exact pushAll_mult_invariant fs (r.push f)
      (fun x hx => hf x (by simp [hx])) hinv2 hnd2

/-! ### Claim theorems -/

/-- C8: a field created by `Field::from_offset` with a non-empty name and
1-based bounds `1 ≤ a ≤ b` has `length = b - a + 1`,
`lower_offset = a - 1` and `upper_offset = b - 1` (stored 0-based); the
constructor fails fast on an empty name or on `a > b`. -/
theorem c8_from_offset_bounds (name description : String) (ft : FieldType)
    (a b : Nat) :
    (name ≠ "" → 1 ≤ a → a ≤ b →
      ∃ f : Field, Field.from_offset name description ft a b = .ok f
        ∧ f.length = b - a + 1 ∧ f.lower_offset = a - 1
        ∧ f.upper_offset = b - 1 ∧ f.creation_type = .ByOffset)
    ∧ Field.from_offset "" description ft a b = .error .emptyName
    ∧ (name ≠ "" → b < a →
        Field.from_offset name description ft a b = .error .lowerGtUpper) := by
  refine ⟨?_, ?_, ?_⟩
  · intro h1 h2 h3
    unfold Field.from_offset
    rw [if_neg h1, if_neg (by omega), if_neg (by omega)]
    exact ⟨_, rfl, rfl, rfl, rfl, rfl⟩
  · unfold Field.from_offset
    rw [if_pos rfl]
  · intro h1 h2
    unfold Field.from_offset
    rw [if_neg h1, if_pos (by omega)]

theorem c8_from_offset_bounds_witness :
    (∃ f : Field, Field.from_offset "F" "" ftInt 2 5 = .ok f
      ∧ f.length = 4 ∧ f.lower_offset = 1 ∧ f.upper_offset = 4
      ∧ f.creation_type = FieldCreationType.ByOffset)
    ∧ Field.from_offset "" "" ftInt 2 5 = .error .emptyName
    ∧ Field.from_offset "F" "" ftInt 5 2 = .error .lowerGtUpper := by
  refine ⟨?_, ?_, ?_⟩
  · exact (c8_from_offset_bounds "F" "" ftInt 2 5).1
      (by decide) (by decide) (by decide)
  · exact (c8_from_offset_bounds "F" "" ftInt 2 5).2.1
  · exact (c8_from_offset_bounds "F" "" ftInt 5 2).2.2 (by decide) (by decide)

/-- C9: the fail-fast guard of `Field::from_offset` does not cover a zero
lower bound: for `lower = 0` the check `lower > upper` passes, and the
constructor then underflows on the unsigned `lower - 1`; the arithmetic
is total exactly under the unchecked precondition `1 ≤ lower`; and
schema loading reaches `lower = 0` because a missing `start` attribute
defaults to 0. -/
theorem c9_from_offset_zero_underflow (name description : String)
    (ft : FieldType) (upper : Nat) :
    (name ≠ "" →
      ¬ ((0 : Nat) > upper)
      ∧ Field.from_offset name description ft 0 upper = .error .underflow)
    ∧ fieldStartAttr none = 0
    ∧ (name ≠ "" → ∀ lower, 1 ≤ lower → lower ≤ upper →
        ∃ f : Field, Field.from_offset name description ft lower upper
          = .ok f) := by
  refine ⟨?_, rfl, ?_⟩
  · intro h1
    refine ⟨by omega, ?_⟩
    unfold Field.from_offset
    rw [if_neg h1, if_neg (by omega), if_pos rfl]
  · intro h1 lower h2 h3
    unfold Field.from_offset
    rw [if_neg h1, if_neg (by omega), if_neg (by omega)]
    exact ⟨_, rfl⟩

theorem c9_from_offset_zero_underflow_witness :
    (¬ ((0 : Nat) > 3)
      ∧ Field.from_offset "F" "" ftInt 0 3 = .error .underflow)
    ∧ fieldStartAttr none = 0
    ∧ (∃ f : Field, Field.from_offset "F" "" ftInt 2 3 = .ok f) := by
  have h := c9_from_offset_zero_underflow "F" "" ftInt 3
  exact ⟨h.1 (by decide), h.2.1,
    h.2.2 (by decide) 2 (by decide) (by decide)⟩

/-- C2 counterexample: pushing two by-offset fields with bounds (1,10)
then (1,5) leaves `calculated_length = 5`, not the greatest upper bound
10 claimed for every push sequence. -/
theorem c2_counterexample :
    recOffDec.calculated_length = 5
    ∧ maxUpperBound recOffDec = 10
    ∧ recOffDec.calculated_length ≠ maxUpperBound recOffDec := by decide

/-- C2 amended: appending a by-offset field sets the record's calculated
length to that field's `upper_offset + 1` — the bound of the appended
field itself, which equals the greatest upper bound over all fields only
when by-offset fields arrive with nondecreasing upper bounds. -/
theorem c2_amended_push_by_offset (r : Record) (f : Field)
    (h : f.creation_type = .ByOffset) :
    (r.push f).calculated_length = f.upper_offset + 1 := by
  rw [push_byOffset_eq r f h]

theorem c2_amended_push_by_offset_witness :
    (Record.push (recBase "R" 0) (fldOff "F1" 1 10)).calculated_length
      = (fldOff "F1" 1 10).upper_offset + 1 :=
  c2_amended_push_by_offset (recBase "R" 0) (fldOff "F1" 1 10) rfl

/-- C10: `Record::retain` and `Record::remove` only drop entries: the
calculated length and every surviving field (index, offsets,
multiplicity, id — the whole field value) are unchanged, and a
subsequent `set_value` (either mode) slices each surviving field at its
original position of the line adjusted with the original record's
calculated length. -/
theorem c10_retain_remove_frame (r : Record) (p : Field → Bool)
    (L : List Char) :
    (r.retain p).calculated_length = r.calculated_length
    ∧ (r.remove p).calculated_length = r.calculated_length
    ∧ (r.retain p).flist = r.flist.filter p
    ∧ (r.remove p).flist = r.flist.filter (fun f => !p f)
    ∧ (∀ f ∈ (r.retain p).flist, f ∈ r.flist)
    ∧ (∀ f ∈ (r.remove p).flist, f ∈ r.flist)
    ∧ (r.retain p).adjust_value L = r.adjust_value L
    ∧ (r.remove p).adjust_value L = r.adjust_value L
    ∧ ((r.retain p).set_value_utf8 L).flist
        = (r.flist.filter p).map (fun f =>
            f.set_value (((r.adjust_value L).drop f.lower_offset).take
              f.length))
    ∧ (r.retain p).set_value_ascii L
        = ((r.flist.filter p).mapM (fun f =>
            (byteSlice (r.adjust_value L) f.lower_offset
              (f.upper_offset + 1)).map f.set_value)).map
          (fun fl => { r.retain p with flist := fl }) := by
  refine ⟨rfl, rfl, rfl, rfl, ?_, ?_, rfl, rfl, rfl, rfl⟩
  · intro f hf
    exact List.mem_of_mem_filter hf
  · intro f hf
    exact List.mem_of_mem_filter hf

/-- C7 counterexample: a record built by `Record::push` from eleven
fields named `A` and one named `A1` assigns the composite id `A10`
twice (to the eleventh `A` and to the first `A1`), so the composite ids
are not pairwise distinct across the record's fields. -/
theorem c7_counterexample :
    ¬ ((recManyA.flist.map (fun f => f.id)).Nodup) := by decide

/-- C7 amended: in a record built by `Record::push` from fresh fields
(incoming multiplicity 0), each name appearing k times carries the
multiplicities 0..k-1 in append order, and the (name, multiplicity)
pairs are pairwise distinct; the composite id strings `name ++
multiplicity` may still collide across different names. -/
theorem c7_amended_multiplicities (fs : List Field) (r0 : Record)
    (h0 : r0.flist = []) (hfs : ∀ f ∈ fs, f.multiplicity = 0)
    (r : Record) (hr : r = Record.pushAll r0 fs) :
    (∀ n : String,
      ((r.flist.filter (fun g => g.name == n)).map
          (fun g => g.multiplicity))
        = List.range ((r.flist.filter (fun g => g.name == n)).length))
    ∧ (r.flist.map (fun g => (g.name, g.multiplicity))).Nodup := by
  subst hr
  exact pushAll_mult_invariant fs r0 hfs
    (fun n => by rw [h0]; rfl) (by rw [h0]; exact List.nodup_nil)

theorem c7_amended_multiplicities_witness :
    ((recSetup.flist.filter (fun g => g.name == "FIELD2")).map
        (fun g => g.multiplicity))
      = List.range
          ((recSetup.flist.filter (fun g => g.name == "FIELD2")).length)
    ∧ (recSetup.flist.map (fun g => (g.name, g.multiplicity))).Nodup := by
  have h := c7_amended_multiplicities
    [fldLen "FIELD1" 10, fldLen "FIELD2" 10,
     fldLen "FIELD3" 20, fldLen "FIELD2" 10]
    (recBase "RECORD1" 20) rfl (by decide) recSetup rfl
  exact ⟨h.1 "FIELD2", h.2⟩

/-- C5 counterexample: the dispatcher built from `range` and domain
`0..2` slices the byte range [0, 2) of the line even when the layout is
UTF-8: on the line `αβ` it yields `α` (2 bytes, 1 codepoint) and not
the codepoint range `αβ` the claim ascribes to UTF-8 layouts. -/
theorem c5_counterexample :
    RecordMapper.new "range" ("0..2".toList)
      = some (RecordMapper.range 0 2)
    ∧ (RecordMapper.range 0 2).apply ("αβ".toList) = some ("α".toList)
    ∧ some ("α".toList)
        ≠ some (specRangeCodepoints ("αβ".toList) 0 2) := by
  refine ⟨by decide, by decide, by decide⟩

/-- C5 amended: the `constant` dispatcher maps every line to the
configured constant; the `range` dispatcher built from a well-formed
domain `a..b` maps every line to its half-open byte range [a, b),
whatever the layout's slicing mode (never codepoints); any strategy
name other than `constant` and `range` (including the unimplemented
`fancy`) is a fatal configuration error. -/
theorem c5_amended_mapper (k line domain : List Char) (a b : Nat)
    (mtype : String) :
    ((RecordMapper.constant k).apply line = some k)
    ∧ (RecordMapper.new "constant" domain
        = some (RecordMapper.constant domain))
    ∧ (parseRange domain = some (a, b) →
        RecordMapper.new "range" domain = some (RecordMapper.range a b))
    ∧ ((RecordMapper.range a b).apply line = byteSlice line a b)
    ∧ (mtype ≠ "constant" → mtype ≠ "range" →
        RecordMapper.new mtype domain = none) := by
  refine ⟨rfl, rfl, ?_, rfl, ?_⟩
  · intro h
    unfold RecordMapper.new
    rw [h]
    rfl
  · intro h1 h2
    unfold RecordMapper.new
    split
    · exact absurd rfl h1
    · exact absurd rfl h2
    · rfl
    · rfl

theorem c5_amended_mapper_witness :
    ((RecordMapper.constant ("K".toList)).apply ("line".toList)
        = some ("K".toList))
    ∧ (RecordMapper.new "constant" ("K".toList)
        = some (RecordMapper.constant ("K".toList)))
    ∧ (RecordMapper.new "range" ("0..2".toList)
        = some (RecordMapper.range 0 2))
    ∧ ((RecordMapper.range 0 2).apply ("abcd".toList)
        = byteSlice ("abcd".toList) 0 2)
    ∧ RecordMapper.new "bogus" ("K".toList) = none := by
  have h := c5_amended_mapper ("K".toList) ("line".toList) ("K".toList)
    0 2 "bogus"
  refine ⟨h.1, h.2.1, ?_, ?_, ?_⟩
  · exact (c5_amended_mapper ("K".toList) ("line".toList)
      ("0..2".toList) 0 2 "bogus").2.2.1 (by decide)
  · exact (c5_amended_mapper ("K".toList) ("abcd".toList)
      ("K".toList) 0 2 "bogus").2.2.2.1
  · exact h.2.2.2.2 (by decide) (by decide)

/-- C4: `Record::is_filter_matched` is the conjunction of the filter's
field-level predicates, where a predicate naming a field absent from
the record is silently skipped (vacuously true), and a predicate on a
duplicated field name holds iff at least one occurrence satisfies it. -/
theorem c4_is_filter_matched (r : Record) (flt : RecordFilter) :
    r.is_filter_matched flt = true ↔
      ∀ ff ∈ flt.expr,
        r.contains_field ff.fname = false
        ∨ ∃ f, f ∈ r.flist ∧ f.name = ff.fname
            ∧ f.is_filter_matched ff = true := by
  unfold Record.is_filter_matched
  rw [foldl_filter_step r flt.expr true, Bool.true_and, List.all_eq_true]
  constructor
  · intro h ff hff
    have hthis := h ff hff
    cases hg : r.get ff.fname with
    | none => exact Or.inl ((get_eq_none_iff r ff.fname).mp hg)
    | some fields =>
      rw [hg] at hthis
      simp only [List.any_eq_true] at hthis
      obtain ⟨f, hf, hm⟩ := hthis
      have hfields := get_eq_some r ff.fname fields hg
      rw [hfields, List.mem_filter] at hf
      exact Or.inr ⟨f, hf.1, eq_of_beq hf.2, hm⟩
  · intro h ff hff
    cases hg : r.get ff.fname with
    | none => simp [hg]
    | some fields =>
      show (fields.any (fun x => x.is_filter_matched ff)) = true
      rcases h ff hff with habs | ⟨f, hf, hn, hm⟩
      · have hnone : r.get ff.fname = none :=
          (get_eq_none_iff r ff.fname).mpr habs
        rw [hg] at hnone
        exact absurd hnone (by simp)
      · simp only [List.any_eq_true]
        refine ⟨f, ?_, hm⟩
        rw [get_eq_some r ff.fname fields hg, List.mem_filter]
        exact ⟨hf, by rw [hn]; simp⟩

/-- C3 counterexample: a layout with declared uniform length 0 whose
single record has declared length 0 and calculated length 5 is
rejected by `is_valid`, although the claim's clause about records with
declared length 0 passing unconditionally would accept it. -/
theorem c3_counterexample :
    ¬ (((layZeroDecl.is_valid).1 = true) ↔
      ((layZeroDecl.rec_length > 0
          ∧ ∀ p ∈ layZeroDecl.rec_map,
              p.2.calculated_length = layZeroDecl.rec_length)
        ∨ (layZeroDecl.rec_length = 0
          ∧ ∀ p ∈ layZeroDecl.rec_map,
              p.2.declared_length = 0
              ∨ p.2.declared_length = p.2.calculated_length))) := by
  decide

/-- C3 amended: `is_valid` holds iff either the declared uniform length
is positive and every record's calculated length equals it, or the
declared uniform length is 0 and every record's declared length equals
its calculated length — with no exception for records whose declared
length is 0. -/
theorem c3_amended_is_valid_iff (l : Layout) :
    (l.is_valid).1 = true ↔
      (l.rec_length > 0
        ∧ ∀ p ∈ l.rec_map, p.2.calculated_length = l.rec_length)
      ∨ (l.rec_length = 0
        ∧ ∀ p ∈ l.rec_map,
            p.2.declared_length = p.2.calculated_length) := by
  unfold Layout.is_valid
  by_cases h0 : l.rec_length ≠ 0
  · rw [if_pos h0]
    cases hfind : l.rec_map.find?
        (fun p => l.rec_length != p.2.calculated_length) with
    | none =>
      rw [List.find?_eq_none] at hfind
      simp only [true_iff]
      refine Or.inl ⟨by omega, ?_⟩
      intro p hp
      have h2 := hfind p hp
      have h3 : ¬ l.rec_length ≠ p.2.calculated_length := by
        simpa [bne] using h2
      omega
    | some p =>
      have hmem := List.mem_of_find?_eq_some hfind
      have hpred := List.find?_some hfind
      rw [bne_iff_ne] at hpred
      simp only [Bool.false_eq_true, false_iff]
      intro hcl
      rcases hcl with ⟨_, hall⟩ | ⟨hz, _⟩
      · exact hpred ((hall p hmem).symm)
      · exact h0 hz
  · rw [if_neg h0]
    push_neg at h0
    cases hfind : l.rec_map.find?
        (fun p => p.2.declared_length != p.2.calculated_length) with
    | none =>
      rw [List.find?_eq_none] at hfind
      simp only [true_iff]
      refine Or.inr ⟨h0, ?_⟩
      intro p hp
      have := hfind p hp
      simpa [bne] using this
    | some p =>
      have hmem := List.mem_of_find?_eq_some hfind
      have hpred := List.find?_some hfind
      rw [bne_iff_ne] at hpred
      simp only [Bool.false_eq_true, false_iff]
      intro hcl
      rcases hcl with ⟨hpos, _⟩ | ⟨_, hall⟩
      · omega
      · exact hpred (hall p hmem)

/-- C6: pushing by-length fields f1..fn onto a fresh record yields
`calculated_length = Σ length`, and the bounds follow contiguously:
field i has `lower_offset` equal to the sum of the preceding lengths
and `upper_offset = lower_offset + length - 1`, keeping its constructed
length. -/
theorem c6_by_length_contiguous (fs : List Field) (r0 : Record)
    (h0 : r0.flist = [] ∧ r0.calculated_length = 0)
    (hfs : ∀ f ∈ fs, f.creation_type = .ByLength ∧ 1 ≤ f.length)
    (r : Record) (hr : r = Record.pushAll r0 fs) :
    r.calculated_length = (fs.map (fun f => f.length)).sum
    ∧ r.flist.length = fs.length
    ∧ ∀ i (hi : i < r.flist.length) (hif : i < fs.length),
        (r.flist.get ⟨i, hi⟩).lower_offset
            = ((fs.take i).map (fun f => f.length)).sum
        ∧ (r.flist.get ⟨i, hi⟩).upper_offset
            = (r.flist.get ⟨i, hi⟩).lower_offset
              + (r.flist.get ⟨i, hi⟩).length - 1
        ∧ (r.flist.get ⟨i, hi⟩).length = (fs.get ⟨i, hif⟩).length
        ∧ 1 ≤ (r.flist.get ⟨i, hi⟩).length := by
  obtain ⟨hfl0, hc0⟩ := h0
  obtain ⟨H1, H2, H3⟩ := pushAll_byLength fs r0 hfs
  rw [hc0] at H1
  rw [hfl0, hc0, List.map_nil, List.nil_append] at H2
  rw [← hr] at H1 H2 H3
  refine ⟨by simpa using H1, ?_, ?_⟩
  · have := congrArg List.length H2
    simpa [tiles_length] using this
  · intro i hi hif
    have hi2 : i < (r.flist.map
        (fun g => (g.lower_offset, g.length))).length := by
      simpa using hi
    have hget := List.get_of_eq H2 ⟨i, hi2⟩
    rw [List.get_map] at hget
    rw [tiles_get] at hget
    simp only [Prod.mk.injEq, Nat.zero_add] at hget
    obtain ⟨hlow, hlen⟩ := hget
    have hupper : (r.flist.get ⟨i, hi⟩) ∈ r.flist :=
      List.get_mem r.flist i hi
    have hrel := H3 _ hupper
    rw [hfl0] at hrel
    rcases hrel with habs | ⟨hu, hl1⟩
    · exact absurd habs (List.not_mem_nil _)
    refine ⟨?_, hu, ?_, hl1⟩
    · rw [hlow, ← List.map_take]
    · rw [hlen, List.get_map]

theorem c6_by_length_contiguous_witness :
    recSetup.calculated_length
      = (([fldLen "FIELD1" 10, fldLen "FIELD2" 10, fldLen "FIELD3" 20,
           fldLen "FIELD2" 10]).map (fun f => f.length)).sum
    ∧ recSetup.flist.length
      = [fldLen "FIELD1" 10, fldLen "FIELD2" 10, fldLen "FIELD3" 20,
         fldLen "FIELD2" 10].length := by
  have h := c6_by_length_contiguous
    [fldLen "FIELD1" 10, fldLen "FIELD2" 10, fldLen "FIELD3" 20,
     fldLen "FIELD2" 10]
    (recBase "RECORD1" 20) ⟨rfl, rfl⟩ (by decide) recSetup rfl
  exact ⟨h.1, h.2.1⟩

/-- C1 counterexample: in UTF-8 mode the padding decision compares the
byte length of the line with the calculated length. On a record of one
by-length field of length 4, the line `αα` (2 codepoints, 4 bytes) is
shorter than the record in the slicing unit (codepoints), yet
`set_value` performs no padding: the record value afterwards is `αα`
itself and not `αα` padded with blanks to 4 codepoints. -/
theorem c1_counterexample :
    ("αα".toList).length < recOneF4.calculated_length
    ∧ (recOneF4.set_value_utf8 ("αα".toList)).value = "αα".toList
    ∧ (recOneF4.set_value_utf8 ("αα".toList)).value
        ≠ "αα".toList
          ++ List.replicate
              (recOneF4.calculated_length - ("αα".toList).length) ' ' := by
  decide

/-- C1 amended: for a record of by-length fields, (i) in ASCII mode, an
all-ASCII line of byte length equal to the calculated length
round-trips exactly through `set_value`/`value`, and a shorter
all-ASCII line is right-padded with blanks to the calculated length;
(ii) in UTF-8 mode a line of codepoint length equal to the calculated
length round-trips exactly, while a shorter line is padded only when
its BYTE length is below the calculated length; in every case the
first |L| codepoints of `value()` equal L. -/
theorem c1_roundtrip_padding (fs : List Field) (r0 : Record)
    (h0 : r0.flist = [] ∧ r0.calculated_length = 0)
    (hfs : ∀ f ∈ fs, f.creation_type = .ByLength ∧ 1 ≤ f.length)
    (r : Record) (hr : r = Record.pushAll r0 fs) :
    (∀ L : List Char, (∀ c ∈ L, isAsciiChar c = true) →
      L.length = r.calculated_length →
      ∃ r2, r.set_value_ascii L = some r2 ∧ r2.value = L)
    ∧ (∀ L : List Char, (∀ c ∈ L, isAsciiChar c = true) →
      L.length < r.calculated_length →
      ∃ r2, r.set_value_ascii L = some r2
        ∧ r2.value
            = L ++ List.replicate (r.calculated_length - L.length) ' ')
    ∧ (∀ L : List Char, L.length = r.calculated_length →
      (r.set_value_utf8 L).value = L)
    ∧ (∀ L : List Char, utf8Len L < r.calculated_length →
      (r.set_value_utf8 L).value
        = L ++ List.replicate (r.calculated_length - L.length) ' ')
    ∧ (∀ L : List Char, L.length ≤ r.calculated_length →
      (r.set_value_utf8 L).value.take L.length = L) := by
  obtain ⟨hfl0, hc0⟩ := h0
  obtain ⟨H1, H2, H3⟩ := pushAll_byLength fs r0 hfs
  rw [hc0] at H1
  rw [hfl0, hc0, List.map_nil, List.nil_append] at H2
  rw [← hr] at H1 H2 H3
  have hsum : r.calculated_length = (fs.map (fun f => f.length)).sum := by
    simpa using H1
  have hup : ∀ f ∈ r.flist,
      f.upper_offset = f.lower_offset + f.length - 1 ∧ 1 ≤ f.length := by
    intro f hf
    rcases H3 f hf with habs | hok
    · rw [hfl0] at habs
      exact absurd habs (List.not_mem_nil _)
    · exact hok
  have hval : ∀ L : List Char, (r.set_value_utf8 L).value
      = (r.adjust_value L).take r.calculated_length := by
    intro L
    rw [set_value_utf8_value r L (fs.map (fun f => f.length)) H2, ← hsum]
  -- UTF-8 exact round-trip
  have hutf8exact : ∀ L : List Char, L.length = r.calculated_length →
      (r.set_value_utf8 L).value = L := by
    intro L hL
    have hge : r.calculated_length ≤ utf8Len L := by
      have := length_le_utf8Len L
      omega
    rw [hval L, adjust_value_of_ge r L hge, ← hL, List.take_length]
  -- UTF-8 padded case
  have hutf8pad : ∀ L : List Char, utf8Len L < r.calculated_length →
      (r.set_value_utf8 L).value
        = L ++ List.replicate (r.calculated_length - L.length) ' ' := by
    intro L hL
    have hll : L.length < r.calculated_length := by
      have := length_le_utf8Len L
      omega
    rw [hval L, adjust_value_of_lt r L hL]
    have hlen2 : (L ++ List.replicate
        (r.calculated_length - L.length) ' ').length
        = r.calculated_length := by
      simp
      omega
    rw [List.take_left' hlen2]
  refine ⟨?_, ?_, hutf8exact, hutf8pad, ?_⟩
  · -- ASCII exact round-trip
    intro L hascii hL
    have hu8 : utf8Len L = L.length := utf8Len_of_ascii hascii
    have hadj : r.adjust_value L = L :=
      adjust_value_of_ge r L (by omega)
    have hsome := set_value_ascii_eq r L (fs.map (fun f => f.length))
      H2 hup (by rw [hadj]; exact hascii)
      (by rw [hadj, ← hsum, hL])
    exact ⟨r.set_value_utf8 L, hsome, hutf8exact L hL⟩
  · -- ASCII padded case
    intro L hascii hL
    have hu8 : utf8Len L = L.length := utf8Len_of_ascii hascii
    have hadj := adjust_value_of_lt r L (by omega)
    have hadjascii : ∀ c ∈ r.adjust_value L, isAsciiChar c = true := by
      rw [hadj]
      intro c hc
      rcases List.mem_append.mp hc with hc2 | hc2
      · rcases List.mem_append.mp hc2 with hc3 | hc3
        · exact hascii c hc3
        · rw [List.eq_of_mem_replicate hc3]; decide
      · rw [show c = ' ' by simpa using hc2]; decide
    have hadjlen : (fs.map (fun f => f.length)).sum
        ≤ (r.adjust_value L).length := by
      rw [hadj]
      simp
      omega
    have hsome := set_value_ascii_eq r L (fs.map (fun f => f.length))
      H2 hup hadjascii hadjlen
    exact ⟨r.set_value_utf8 L, hsome, hutf8pad L (by omega)⟩
  · -- first |L| codepoints always equal L
    intro L hL
    by_cases hc : utf8Len L < r.calculated_length
    · rw [hutf8pad L hc, List.take_left]
    · push_neg at hc
      rw [hval L, adjust_value_of_ge r L hc, List.take_take]
      rw [Nat.min_eq_left hL, List.take_length]

theorem c1_roundtrip_padding_witness :
    (∃ r2, recSetup.set_value_ascii (List.replicate 50 'A') = some r2
      ∧ r2.value = List.replicate 50 'A')
    ∧ (recSetup.set_value_utf8 ("ZZZ".toList)).value
        = "ZZZ".toList ++ List.replicate 47 ' ' := by
  have h := c1_roundtrip_padding
    [fldLen "FIELD1" 10, fldLen "FIELD2" 10, fldLen "FIELD3" 20,
     fldLen "FIELD2" 10]
    (recBase "RECORD1" 20) ⟨rfl, rfl⟩ (by decide) recSetup rfl
  refine ⟨h.1 (List.replicate 50 'A') (by decide) (by decide), ?_⟩
  exact h.2.2.2.1 ("ZZZ".toList) (by decide)

end Rbf
